import Mathlib

/-!
Shallow embedding of the finite-difference Schrödinger solver of
`src/quantum_playground` (`solvers.py` and `potentials.py`), together with
theorems settling the specification claims about it.

Floating-point arrays are modelled as functions `Fin n → ℝ` / `Fin n → ℂ`
in exact real/complex arithmetic; Python exceptions are modelled with
`Except`; scipy sparse matrices become Mathlib matrices.
-/

open scoped BigOperators
open Matrix

namespace QuantumPlayground

/-- Python runtime errors that the embedded code can raise. -/
inductive PyError where
  | indexError
deriving DecidableEq

/-- Embedding of `np.linspace(x_min, x_max, n)` (endpoint included):
`x[i] = x_min + i * (x_max - x_min) / (n - 1)`. -/
noncomputable def linspace (x_min x_max : ℝ) (n : ℕ) : Fin n → ℝ :=
  fun i => x_min + (i : ℝ) * ((x_max - x_min) / ((n : ℝ) - 1))

/-- The data held by `QuantumGrid` (solvers.py, `QuantumGrid.__init__` stores
`x_min`, `x_max`, `num_points`; `x` and `dx` are derived below). -/
structure QuantumGrid where
  x_min : ℝ
  x_max : ℝ
  num_points : ℕ

/-- The grid coordinates `self.x = np.linspace(x_min, x_max, num_points)`. -/
noncomputable def QuantumGrid.x (g : QuantumGrid) : Fin g.num_points → ℝ :=
  linspace g.x_min g.x_max g.num_points

/-- The grid spacing `self.dx = self.x[1] - self.x[0]`; the index `1` exists
only when `num_points ≥ 2` (otherwise Python raises IndexError, see
`QuantumGrid.create`). -/
noncomputable def QuantumGrid.dx (g : QuantumGrid) : ℝ :=
  if h : 2 ≤ g.num_points then
    g.x ⟨1, by omega⟩ - g.x ⟨0, by omega⟩
  else 0

/-- Embedding of `QuantumGrid.__init__(x_min, x_max, num_points)`: the
constructor performs no validation of its arguments; it stores the fields and
computes `self.dx = self.x[1] - self.x[0]`, which raises `IndexError` when
`num_points < 2` (the linspace array then has no index 1). -/
def QuantumGrid.create (x_min x_max : ℝ) (num_points : ℕ) :
    Except PyError QuantumGrid :=
  if 2 ≤ num_points then .ok ⟨x_min, x_max, num_points⟩ else .error .indexError

/-- Embedding of `QuantumGrid.kinetic_energy_matrix(mass)`:
`coeff = -(1/(2*mass))/dx**2`; superdiagonal and subdiagonal entries are
`coeff`, main-diagonal entries are `-2*coeff`, all other entries are `0`. -/
noncomputable def QuantumGrid.kinetic_energy_matrix (g : QuantumGrid) (mass : ℝ) :
    Matrix (Fin g.num_points) (Fin g.num_points) ℝ :=
  Matrix.of fun i j =>
    if (i : ℕ) = (j : ℕ) then -2 * (-(1 / (2 * mass)) / g.dx ^ 2)
    else if (i : ℕ) + 1 = (j : ℕ) ∨ (j : ℕ) + 1 = (i : ℕ) then
      -(1 / (2 * mass)) / g.dx ^ 2
    else 0

/-- C3: for every grid and every mass, `kinetic_energy_matrix mass` is
tridiagonal with every main-diagonal entry equal to `1/(mass·dx²)`
(that is, `ħ²/(mass·dx²)` with `ħ = 1` in atomic units), every super- and
sub-diagonal entry equal to `-1/(2·mass·dx²)`, and all other entries zero. -/
theorem kinetic_energy_matrix_tridiagonal (g : QuantumGrid) (mass : ℝ)
    (i j : Fin g.num_points) :
    g.kinetic_energy_matrix mass i j =
      if (i : ℕ) = (j : ℕ) then 1 / (mass * g.dx ^ 2)
      else if (i : ℕ) + 1 = (j : ℕ) ∨ (j : ℕ) + 1 = (i : ℕ) then
        -(1 / (2 * mass * g.dx ^ 2))
      else 0 := by
  have h1 : -2 * (-(1 / (2 * mass)) / g.dx ^ 2) = 1 / (mass * g.dx ^ 2) := by
    simp only [div_eq_mul_inv, mul_inv, one_mul]
    ring
  have h2 : -(1 / (2 * mass)) / g.dx ^ 2 = -(1 / (2 * mass * g.dx ^ 2)) := by
    simp only [div_eq_mul_inv, mul_inv, one_mul]
    ring
  simp only [QuantumGrid.kinetic_energy_matrix, Matrix.of_apply]
  rw [h1, h2]

/-- C4 counterexample: `QuantumGrid.create 0 0 10` (degenerate bounds,
`x_min = x_max`) does not fail at all: it returns a grid object, contradicting
the claim that creation fails with `InvalidGridError` whenever
`x_min >= x_max`. (No `InvalidGridError` exists anywhere in the code.) -/
theorem create_accepts_equal_bounds :
    QuantumGrid.create 0 0 10 = Except.ok ⟨0, 0, 10⟩ := rfl

/-- C4 amended: `QuantumGrid.__init__` performs no validation. Every call with
`num_points ≥ 2` succeeds regardless of how `x_min` compares to `x_max`, and
yields `dx = (x_max - x_min)/(num_points - 1)` (so `create 0 0 10` returns a
grid with `dx = 0`); a call with `num_points < 2` fails with `IndexError`
(from evaluating `self.x[1]`), not with `InvalidGridError`. -/
theorem create_amended (x_min x_max : ℝ) (num_points : ℕ) :
    (2 ≤ num_points →
      ∃ g : QuantumGrid, QuantumGrid.create x_min x_max num_points = .ok g ∧
        g.dx = (x_max - x_min) / ((num_points : ℝ) - 1)) ∧
    (num_points < 2 →
      QuantumGrid.create x_min x_max num_points = .error .indexError) := by
  constructor
  · intro h
    refine ⟨⟨x_min, x_max, num_points⟩, ?_, ?_⟩
    · simp [QuantumGrid.create, h]
    · simp only [QuantumGrid.dx, QuantumGrid.x, linspace]
      rw [dif_pos h]
      push_cast
      ring
  · intro h
    have h2 : ¬ 2 ≤ num_points := by omega
    simp [QuantumGrid.create, h2]

/-- C4 amended, witness at the claim input `(0, 0, 10)`: creation succeeds
and the resulting grid has `dx = 0`. -/
theorem create_amended_witness :
    2 ≤ 10 ∧
      ∃ g : QuantumGrid, QuantumGrid.create 0 0 10 = .ok g ∧
        g.dx = ((0 : ℝ) - 0) / ((10 : ℝ) - 1) :=
  ⟨by norm_num, (create_amended 0 0 10).1 (by norm_num)⟩

/-- Embedding of `GaussianWavePacket.create(x, x0, sigma, k0, amplitude)`:
`psi = amplitude * np.exp(-((x - x0)**2) / (2*sigma**2)) * np.exp(1j*k0*x)`. -/
noncomputable def GaussianWavePacket.create {n : ℕ} (x : Fin n → ℝ)
    (x0 sigma k0 amplitude : ℝ) : Fin n → ℂ :=
  fun i =>
    (amplitude : ℂ) * Complex.exp ((-((x i - x0) ^ 2) / (2 * sigma ^ 2) : ℝ) : ℂ) *
      Complex.exp (Complex.I * (k0 : ℂ) * ((x i : ℝ) : ℂ))

/-- Embedding of `GaussianWavePacket.normalize(psi, dx)`:
`norm = np.sqrt(np.sum(np.abs(psi)**2) * dx); return psi / norm`.
No zero-norm check is performed. -/
noncomputable def GaussianWavePacket.normalize {n : ℕ} (psi : Fin n → ℂ) (dx : ℝ) :
    Fin n → ℂ :=
  fun i => psi i / ((Real.sqrt ((∑ j, Complex.abs (psi j) ^ 2) * dx) : ℝ) : ℂ)

/-- C7 counterexample: `normalize` applied to the zero-norm wavefunction does
return a numeric array (here, under the exact-arithmetic convention for
division by zero, the zero array; in numpy a NaN array plus a warning) —
no `DegenerateStateError` is raised, and in fact no such error class exists
anywhere in the code. -/
theorem normalize_zero_norm_returns_array :
    GaussianWavePacket.normalize (fun _ : Fin 2 => (0 : ℂ)) 1 = fun _ => 0 := by
  funext i
  simp [GaussianWavePacket.normalize]

/-- C7 amended: `normalize` performs no zero-norm check and raises no error:
applied to a packet created with `amplitude = 0` (which has zero norm) it
divides by the zero norm and returns an array anyway (each entry `0/0`, which
is NaN in floating point and `0` in this exact model), instead of failing
with `DegenerateStateError`. -/
theorem normalize_amplitude_zero_amended {n : ℕ} (x : Fin n → ℝ)
    (x0 sigma k0 dx : ℝ) :
    GaussianWavePacket.normalize (GaussianWavePacket.create x x0 sigma k0 0) dx =
      fun _ => 0 := by
  funext i
  simp [GaussianWavePacket.normalize, GaussianWavePacket.create]

/-- C8: creating a Gaussian wave packet with any nonzero amplitude and then
normalizing it with the grid spacing `dx > 0` yields a wavefunction of unit
total probability: `(Σ|ψ|²)·dx = 1` exactly, independent of the amplitude. -/
theorem create_normalize_unit_norm {n : ℕ} (x : Fin n → ℝ)
    (x0 sigma k0 amplitude dx : ℝ) (hn : 0 < n) (hsigma : 0 < sigma)
    (hamp : amplitude ≠ 0) (hdx : 0 < dx) :
    (∑ i, Complex.abs
        (GaussianWavePacket.normalize
          (GaussianWavePacket.create x x0 sigma k0 amplitude) dx i) ^ 2) * dx
      = 1 := by
  set psi := GaussianWavePacket.create x x0 sigma k0 amplitude with hpsi
  have hne : psi ⟨0, hn⟩ ≠ 0 := by
    rw [hpsi]
    simp only [GaussianWavePacket.create]
    exact mul_ne_zero
      (mul_ne_zero (Complex.ofReal_ne_zero.mpr hamp) (Complex.exp_ne_zero _))
      (Complex.exp_ne_zero _)
  have hpos : 0 < (∑ j, Complex.abs (psi j) ^ 2) * dx := by
    refine mul_pos ?_ hdx
    refine Finset.sum_pos' (fun j _ => by positivity) ?_
    refine ⟨⟨0, hn⟩, Finset.mem_univ _, ?_⟩
    have h0 := Complex.abs.pos hne
    positivity
  set S := (∑ j, Complex.abs (psi j) ^ 2) * dx with hSdef
  have hS : Real.sqrt S ^ 2 = S := Real.sq_sqrt hpos.le
  have hc : Complex.abs ((Real.sqrt S : ℝ) : ℂ) = Real.sqrt S := by
    rw [Complex.abs_ofReal, abs_of_nonneg (Real.sqrt_nonneg _)]
  have key : ∀ i, Complex.abs (GaussianWavePacket.normalize psi dx i) ^ 2
      = Complex.abs (psi i) ^ 2 / S := by
    intro i
    simp only [GaussianWavePacket.normalize, ← hSdef]
    rw [map_div₀, div_pow, hc, hS]
  rw [Finset.sum_congr rfl (fun i _ => key i), ← Finset.sum_div,
    div_mul_eq_mul_div, ← hSdef, div_self hpos.ne.symm]

/-- C8 witness: at a one-point grid with `x = 0`, `x0 = 0`, `sigma = 1`,
`k0 = 0`, `amplitude = 1`, `dx = 1`, the created-then-normalized packet has
unit total probability. -/
theorem create_normalize_unit_norm_witness :
    (0 < 1 ∧ (0 : ℝ) < 1 ∧ (1 : ℝ) ≠ 0 ∧ (0 : ℝ) < 1) ∧
      (∑ i, Complex.abs
          (GaussianWavePacket.normalize
            (GaussianWavePacket.create (fun _ : Fin 1 => 0) 0 1 0 1) 1 i) ^ 2) * 1
        = 1 :=
  ⟨⟨Nat.one_pos, by norm_num, by norm_num, by norm_num⟩,
    create_normalize_unit_norm (fun _ : Fin 1 => 0) 0 1 0 1 1 Nat.one_pos
      (by norm_num) (by norm_num) (by norm_num)⟩

/-- Embedding of `compute_transmission_coefficient(psi_transmitted,
psi_incident, barrier_region, dx)`: sums `|psi_transmitted[i_end:]|² * dx`,
divides by `(Σ|psi_incident|²·dx) + 1e-10`, and clips the quotient to
`[0, 1]`. -/
noncomputable def compute_transmission_coefficient {n : ℕ}
    (psi_transmitted psi_incident : Fin n → ℂ) (barrier_region : ℕ × ℕ)
    (dx : ℝ) : ℝ :=
  let i_end := barrier_region.2
  let prob_transmitted :=
    (∑ i in Finset.univ.filter (fun i : Fin n => i_end ≤ (i : ℕ)),
      Complex.abs (psi_transmitted i) ^ 2) * dx
  let prob_incident := (∑ i, Complex.abs (psi_incident i) ^ 2) * dx
  let T := prob_transmitted / (prob_incident + 1 / 10 ^ 10)
  min (max T 0) 1

/-- C10: for every pair of wavefunctions, barrier region and `dx > 0`, the
denominator `prob_incident + 1e-10` of `compute_transmission_coefficient` is
strictly positive (no division by zero, even for an identically zero incident
wavefunction) and the returned value lies in `[0, 1]`. -/
theorem transmission_total_and_bounded {n : ℕ}
    (psi_transmitted psi_incident : Fin n → ℂ) (barrier_region : ℕ × ℕ)
    (dx : ℝ) (hdx : 0 < dx) :
    0 < (∑ i, Complex.abs (psi_incident i) ^ 2) * dx + 1 / 10 ^ 10 ∧
    0 ≤ compute_transmission_coefficient psi_transmitted psi_incident
        barrier_region dx ∧
    compute_transmission_coefficient psi_transmitted psi_incident
        barrier_region dx ≤ 1 := by
  refine ⟨?_, ?_, ?_⟩
  · have h1 : 0 ≤ (∑ i, Complex.abs (psi_incident i) ^ 2) * dx := by
      refine mul_nonneg (Finset.sum_nonneg fun i _ => by positivity) hdx.le
    have h2 : (0 : ℝ) < 1 / 10 ^ 10 := by norm_num
    linarith
  · simp only [compute_transmission_coefficient]
    exact le_min (le_max_right _ _) zero_le_one
  · simp only [compute_transmission_coefficient]
    exact min_le_right _ _

/-- C10 witness: with a zero incident wavefunction on a one-point grid and
`dx = 1`, the denominator is positive and the result lies in `[0, 1]`. -/
theorem transmission_total_and_bounded_witness :
    (0 : ℝ) < 1 ∧
      (0 < (∑ i : Fin 1, Complex.abs ((fun _ : Fin 1 => (0 : ℂ)) i) ^ 2) * 1
          + 1 / 10 ^ 10 ∧
        0 ≤ compute_transmission_coefficient (fun _ : Fin 1 => 0)
            (fun _ : Fin 1 => 0) (0, 1) 1 ∧
        compute_transmission_coefficient (fun _ : Fin 1 => 0)
            (fun _ : Fin 1 => 0) (0, 1) 1 ≤ 1) :=
  ⟨by norm_num,
    transmission_total_and_bounded (fun _ => 0) (fun _ => 0) (0, 1) 1
      (by norm_num)⟩

/-- Embedding of `PotentialAnalysis.tunneling_probability_estimate(E, V, x)`
(potentials.py): `dx = x[1] - x[0]` (so the grid must have at least two
points, hence the index type `Fin (n+2)`);
`forbidden_mask = (V > E) & (V - E > 0)`; if the mask is empty return `1.0`;
otherwise `kappa = Σ_forbidden sqrt(2 * max(0, V - E)) * dx` and the result is
`np.clip(exp(-2*kappa), 0, 1)`. The particle mass is fixed to `1` (atomic
units), as in the code comment. -/
noncomputable def PotentialAnalysis.tunneling_probability_estimate {n : ℕ}
    (E : ℝ) (V : Fin (n + 2) → ℝ) (x : Fin (n + 2) → ℝ) : ℝ :=
  let dx := x 1 - x 0
  let forbidden : Finset (Fin (n + 2)) :=
    Finset.univ.filter (fun i => E < V i ∧ 0 < V i - E)
  if forbidden = ∅ then 1
  else
    let kappa := (∑ i in forbidden, Real.sqrt (2 * max 0 (V i - E))) * dx
    min (max (Real.exp (-2 * kappa)) 0) 1

/-- C6: `tunneling_probability_estimate E V x` returns exactly `1` when
`V ≤ E` at every grid point (no classically forbidden region); otherwise
(grid spacing positive, some point with `V > E`) it returns
`exp(-2·κ)` with `κ = Σ_{V>E} sqrt(2·max(0, V-E))·dx` (mass `1`, atomic
units), a value strictly between `0` and `1` which the final clip to `[0,1]`
leaves unchanged. -/
theorem tunneling_probability_estimate_spec {n : ℕ} (E : ℝ)
    (V x : Fin (n + 2) → ℝ) :
    ((∀ i, V i ≤ E) → PotentialAnalysis.tunneling_probability_estimate E V x = 1) ∧
    (0 < x 1 - x 0 → ∀ i0 : Fin (n + 2), E < V i0 →
      PotentialAnalysis.tunneling_probability_estimate E V x =
        Real.exp (-2 * ((∑ i in Finset.univ.filter (fun i => E < V i),
          Real.sqrt (2 * max 0 (V i - E))) * (x 1 - x 0))) ∧
      0 < PotentialAnalysis.tunneling_probability_estimate E V x ∧
      PotentialAnalysis.tunneling_probability_estimate E V x < 1) := by
  have hfilter : Finset.univ.filter (fun i : Fin (n + 2) => E < V i ∧ 0 < V i - E)
      = Finset.univ.filter (fun i => E < V i) := by
    apply Finset.filter_congr
    intro i _
    constructor
    · exact fun h => h.1
    · exact fun h => ⟨h, sub_pos.mpr h⟩
  constructor
  · intro h
    have hempty : Finset.univ.filter (fun i : Fin (n + 2) => E < V i ∧ 0 < V i - E)
        = ∅ := by
      rw [hfilter]
      exact Finset.filter_false_of_mem fun i _ => not_lt.mpr (h i)
    simp only [PotentialAnalysis.tunneling_probability_estimate]
    rw [if_pos hempty]
  · intro hdx i0 hi0
    have hmem : i0 ∈ Finset.univ.filter (fun i : Fin (n + 2) => E < V i ∧ 0 < V i - E) := by
      rw [Finset.mem_filter]
      exact ⟨Finset.mem_univ _, hi0, sub_pos.mpr hi0⟩
    have hne : Finset.univ.filter (fun i : Fin (n + 2) => E < V i ∧ 0 < V i - E) ≠ ∅ :=
      Finset.ne_empty_of_mem hmem
    have hsum : 0 < ∑ i in Finset.univ.filter
        (fun i : Fin (n + 2) => E < V i ∧ 0 < V i - E),
        Real.sqrt (2 * max 0 (V i - E)) := by
      refine Finset.sum_pos' (fun i _ => Real.sqrt_nonneg _) ⟨i0, hmem, ?_⟩
      refine Real.sqrt_pos.mpr ?_
      have h1 : 0 < V i0 - E := sub_pos.mpr hi0
      have h2 : max 0 (V i0 - E) = V i0 - E := max_eq_right h1.le
      rw [h2]
      linarith
    have hkappa : 0 < (∑ i in Finset.univ.filter
        (fun i : Fin (n + 2) => E < V i ∧ 0 < V i - E),
        Real.sqrt (2 * max 0 (V i - E))) * (x 1 - x 0) := mul_pos hsum hdx
    have hT0 : 0 < Real.exp (-2 * ((∑ i in Finset.univ.filter
        (fun i : Fin (n + 2) => E < V i ∧ 0 < V i - E),
        Real.sqrt (2 * max 0 (V i - E))) * (x 1 - x 0))) := Real.exp_pos _
    have hT1 : Real.exp (-2 * ((∑ i in Finset.univ.filter
        (fun i : Fin (n + 2) => E < V i ∧ 0 < V i - E),
        Real.sqrt (2 * max 0 (V i - E))) * (x 1 - x 0))) < 1 := by
      rw [Real.exp_lt_one_iff]
      nlinarith
    have hval : PotentialAnalysis.tunneling_probability_estimate E V x
        = Real.exp (-2 * ((∑ i in Finset.univ.filter
          (fun i : Fin (n + 2) => E < V i ∧ 0 < V i - E),
          Real.sqrt (2 * max 0 (V i - E))) * (x 1 - x 0))) := by
      simp only [PotentialAnalysis.tunneling_probability_estimate]
      rw [if_neg hne, max_eq_left hT0.le, min_eq_left hT1.le]
    refine ⟨?_, ?_, ?_⟩
    · rw [hval, hfilter]
    · rw [hval]; exact hT0
    · rw [hval]; exact hT1

/-- C6 witness: with `E = 0`, `V ≡ 1` (barrier exceeds the energy everywhere)
and the grid `x = (0, 1)`, the spacing is positive, the forbidden region is
nonempty, and the estimate is strictly between `0` and `1`. -/
theorem tunneling_probability_estimate_witness :
    (0 : ℝ) < (fun i : Fin 2 => (i : ℝ)) 1 - (fun i : Fin 2 => (i : ℝ)) 0 ∧
    (0 : ℝ) < (fun _ : Fin 2 => (1 : ℝ)) 0 ∧
    (0 < PotentialAnalysis.tunneling_probability_estimate 0
        (fun _ : Fin 2 => 1) (fun i => (i : ℝ)) ∧
      PotentialAnalysis.tunneling_probability_estimate 0
        (fun _ : Fin 2 => 1) (fun i => (i : ℝ)) < 1) :=
  ⟨by norm_num, by norm_num,
    ((tunneling_probability_estimate_spec 0 (fun _ : Fin 2 => 1)
      (fun i => (i : ℝ))).2 (by norm_num) 0 (by norm_num)).2⟩

/-- The configuration stored by `TimeDependentSolver.__init__(grid, potential,
mass, dt)`. -/
structure TimeDependentSolver where
  grid : QuantumGrid
  potential : Fin grid.num_points → ℝ
  mass : ℝ
  dt : ℝ

namespace TimeDependentSolver

/-- The real Hamiltonian `self.H = self.T + self.V` with
`self.T = grid.kinetic_energy_matrix(mass)` and
`self.V = sparse.diags(potential)`. -/
noncomputable def H (S : TimeDependentSolver) :
    Matrix (Fin S.grid.num_points) (Fin S.grid.num_points) ℝ :=
  S.grid.kinetic_energy_matrix S.mass + Matrix.diagonal S.potential

/-- The Crank-Nicolson coefficient `coeff = 1j * self.dt / 2.0`. -/
noncomputable def coeff (S : TimeDependentSolver) : ℂ :=
  Complex.I * (S.dt : ℂ) / 2

/-- The left-hand matrix `self.A = I + coeff * self.H`. -/
noncomputable def A (S : TimeDependentSolver) :
    Matrix (Fin S.grid.num_points) (Fin S.grid.num_points) ℂ :=
  1 + S.coeff • S.H.map (fun a => (a : ℂ))

/-- The right-hand matrix `self.B = I - coeff * self.H`. -/
noncomputable def B (S : TimeDependentSolver) :
    Matrix (Fin S.grid.num_points) (Fin S.grid.num_points) ℂ :=
  1 - S.coeff • S.H.map (fun a => (a : ℂ))

/-- Embedding of `TimeDependentSolver.step(psi)`:
`rhs = self.B @ psi; psi_new = self.A_lu.solve(rhs)`. The LU solve of the
factorized `A` is modelled as multiplication by `A⁻¹`. -/
noncomputable def step (S : TimeDependentSolver)
    (psi : Fin S.grid.num_points → ℂ) : Fin S.grid.num_points → ℂ :=
  S.A⁻¹ *ᵥ (S.B *ᵥ psi)

/-- The list of columns written by the loop in
`TimeDependentSolver.evolve`: column `0` is the current wavefunction, and
each following column is one `step` further. -/
def evolveList {α : Type*} (f : α → α) (psi : α) : ℕ → List α
  | 0 => []
  | k + 1 => psi :: evolveList f (f psi) k

/-- Embedding of `TimeDependentSolver.evolve(psi_init, num_steps)`:
allocates `trajectory` with `num_steps` columns, writes `psi_init` into
column `0` (raising `IndexError` when `num_steps = 0`, since the array then
has no column 0), then steps and records columns `1 … num_steps-1`. -/
noncomputable def evolve (S : TimeDependentSolver)
    (psi_init : Fin S.grid.num_points → ℂ) (num_steps : ℕ) :
    Except PyError (List (Fin S.grid.num_points → ℂ)) :=
  if num_steps = 0 then .error .indexError
  else .ok (evolveList S.step psi_init num_steps)

end TimeDependentSolver

theorem evolveList_length {α : Type*} (f : α → α) (psi : α) (k : ℕ) :
    (TimeDependentSolver.evolveList f psi k).length = k := by
  induction k generalizing psi with
  | zero => rfl
  | succ k ih => simp [TimeDependentSolver.evolveList, ih]

theorem evolveList_get {α : Type*} (f : α → α) (psi : α) (k t : ℕ)
    (h : t < (TimeDependentSolver.evolveList f psi k).length) :
    (TimeDependentSolver.evolveList f psi k).get ⟨t, h⟩ = f^[t] psi := by
  induction k generalizing psi t with
  | zero =>
    rw [evolveList_length] at h
    exact absurd h (Nat.not_lt_zero t)
  | succ k ih =>
    cases t with
    | zero => simp [TimeDependentSolver.evolveList]
    | succ t =>
      have h2 : t < (TimeDependentSolver.evolveList f (f psi) k).length := by
        rw [evolveList_length]
        rw [evolveList_length] at h
        omega
      have hstep : (TimeDependentSolver.evolveList f psi (k + 1)).get ⟨t + 1, h⟩
          = (TimeDependentSolver.evolveList f (f psi) k).get ⟨t, h2⟩ := rfl
      rw [hstep, ih (f psi) t h2, Function.iterate_succ_apply]

theorem kinetic_energy_matrix_symm (g : QuantumGrid) (mass : ℝ)
    (i j : Fin g.num_points) :
    g.kinetic_energy_matrix mass i j = g.kinetic_energy_matrix mass j i := by
  simp only [QuantumGrid.kinetic_energy_matrix, Matrix.of_apply]
  have h1 : ((i : ℕ) = (j : ℕ)) ↔ ((j : ℕ) = (i : ℕ)) := eq_comm
  have h2 : ((i : ℕ) + 1 = (j : ℕ) ∨ (j : ℕ) + 1 = (i : ℕ))
      ↔ ((j : ℕ) + 1 = (i : ℕ) ∨ (i : ℕ) + 1 = (j : ℕ)) := or_comm
  rw [if_congr h1 rfl (if_congr h2 rfl rfl)]

theorem TimeDependentSolver.H_symm (S : TimeDependentSolver)
    (i j : Fin S.grid.num_points) : S.H i j = S.H j i := by
  simp only [TimeDependentSolver.H, Matrix.add_apply, Matrix.diagonal_apply]
  rw [kinetic_energy_matrix_symm]
  congr 1
  by_cases h : i = j
  · subst h; rfl
  · rw [if_neg h, if_neg (Ne.symm h)]

theorem TimeDependentSolver.Hc_conjTranspose (S : TimeDependentSolver) :
    (S.H.map (fun a => (a : ℂ)))ᴴ = S.H.map (fun a => (a : ℂ)) := by
  ext i j
  simp only [Matrix.conjTranspose_apply, Matrix.map_apply, Complex.star_def,
    Complex.conj_ofReal]
  rw [S.H_symm j i]

theorem TimeDependentSolver.star_coeff (S : TimeDependentSolver) :
    star S.coeff = -S.coeff := by
  have hc2 : S.coeff = Complex.I * ((S.dt / 2 : ℝ) : ℂ) := by
    rw [TimeDependentSolver.coeff]
    push_cast
    ring
  rw [hc2]
  simp only [star_mul', Complex.star_def, Complex.conj_I, Complex.conj_ofReal]
  ring

theorem TimeDependentSolver.A_conjTranspose (S : TimeDependentSolver) :
    S.Aᴴ = S.B := by
  simp only [TimeDependentSolver.A, TimeDependentSolver.B,
    Matrix.conjTranspose_add, Matrix.conjTranspose_one, Matrix.conjTranspose_smul,
    TimeDependentSolver.Hc_conjTranspose, TimeDependentSolver.star_coeff]
  rw [neg_smul, ← sub_eq_add_neg]

theorem TimeDependentSolver.B_conjTranspose (S : TimeDependentSolver) :
    S.Bᴴ = S.A := by
  simp only [TimeDependentSolver.A, TimeDependentSolver.B,
    Matrix.conjTranspose_sub, Matrix.conjTranspose_one, Matrix.conjTranspose_smul,
    TimeDependentSolver.Hc_conjTranspose, TimeDependentSolver.star_coeff]
  rw [neg_smul, sub_neg_eq_add]

/-- In any ring, `1 + x` and `1 - x` commute. -/
theorem one_add_mul_one_sub_comm {R : Type*} [Ring R] (x : R) :
    (1 + x) * (1 - x) = (1 - x) * (1 + x) := by noncomm_ring

/-- The quadratic form of a Hermitian matrix is fixed by `star`. -/
theorem quadForm_star {n : ℕ} (M : Matrix (Fin n) (Fin n) ℂ) (hM : Mᴴ = M)
    (v : Fin n → ℂ) :
    star (star v ⬝ᵥ (M *ᵥ v)) = star v ⬝ᵥ (M *ᵥ v) := by
  conv_lhs => rw [Matrix.star_dotProduct, star_star]
  rw [Matrix.star_mulVec, hM, ← Matrix.dotProduct_mulVec]

/-- The sesquilinear self-pairing is the (real) sum of the squared moduli. -/
theorem star_dotProduct_self {n : ℕ} (v : Fin n → ℂ) :
    star v ⬝ᵥ v = ((∑ i, Complex.normSq (v i) : ℝ) : ℂ) := by
  rw [Complex.ofReal_sum]
  simp only [Matrix.dotProduct, Pi.star_apply]
  refine Finset.sum_congr rfl fun i _ => ?_
  rw [Complex.star_def, mul_comm, Complex.mul_conj]

/-- The Crank-Nicolson left-hand matrix `A = I + i·(dt/2)·H` is always
invertible: `H` is real symmetric, so a kernel vector of `A` would have to
have zero norm. -/
theorem TimeDependentSolver.A_det_ne_zero (S : TimeDependentSolver) :
    S.A.det ≠ 0 := by
  intro hdet
  obtain ⟨v, hv, hAv⟩ := Matrix.exists_mulVec_eq_zero_iff.mpr hdet
  set M := S.H.map (fun a => (a : ℂ)) with hMdef
  have hexp : S.A *ᵥ v = v + S.coeff • (M *ᵥ v) := by
    simp only [TimeDependentSolver.A, Matrix.add_mulVec, Matrix.one_mulVec,
      Matrix.smul_mulVec_assoc, hMdef]
  have h0 : star v ⬝ᵥ (v + S.coeff • (M *ᵥ v)) = 0 := by
    rw [← hexp, hAv, Matrix.dotProduct_zero]
  rw [Matrix.dotProduct_add, Matrix.dotProduct_smul, smul_eq_mul,
    star_dotProduct_self] at h0
  have hq : (starRingEnd ℂ) (star v ⬝ᵥ (M *ᵥ v)) = star v ⬝ᵥ (M *ᵥ v) := by
    rw [starRingEnd_apply]
    exact quadForm_star M S.Hc_conjTranspose v
  have hqim : (star v ⬝ᵥ (M *ᵥ v)).im = 0 := Complex.conj_eq_iff_im.mp hq
  have hcre : S.coeff.re = 0 := by
    have hc2 : S.coeff = Complex.I * ((S.dt / 2 : ℝ) : ℂ) := by
      rw [TimeDependentSolver.coeff]
      push_cast
      ring
    rw [hc2]
    simp [Complex.mul_re]
  have hre := congrArg Complex.re h0
  simp only [Complex.add_re, Complex.ofReal_re, Complex.mul_re, hcre, hqim,
    Complex.zero_re, zero_mul, mul_zero, sub_zero, add_zero] at hre
  have hvz : v = 0 := by
    funext i
    have hnn : ∀ j ∈ Finset.univ, 0 ≤ Complex.normSq (v j) :=
      fun j _ => Complex.normSq_nonneg _
    have hz := (Finset.sum_eq_zero_iff_of_nonneg hnn).mp hre i (Finset.mem_univ i)
    simpa using Complex.normSq_eq_zero.mp hz
  exact hv hvz

/-- C1: `step psi` is a solution of the Crank-Nicolson linear system
`(I + i·H·dt/2)·psi_next = (I − i·H·dt/2)·psi` (with
`H = T + diag(potential)` as built by the solver), and — assuming the
left-hand matrix is invertible — the unique one. -/
theorem step_solves_crank_nicolson (S : TimeDependentSolver)
    (psi : Fin S.grid.num_points → ℂ) (hA : IsUnit S.A.det) :
    S.A *ᵥ S.step psi = S.B *ᵥ psi ∧
      ∀ y, S.A *ᵥ y = S.B *ᵥ psi → y = S.step psi := by
  constructor
  · show S.A *ᵥ (S.A⁻¹ *ᵥ (S.B *ᵥ psi)) = S.B *ᵥ psi
    rw [Matrix.mulVec_mulVec, Matrix.mul_nonsing_inv _ hA, Matrix.one_mulVec]
  · intro y hy
    have h1 : S.A⁻¹ *ᵥ (S.A *ᵥ y) = S.A⁻¹ *ᵥ (S.B *ᵥ psi) := by rw [hy]
    rw [Matrix.mulVec_mulVec, Matrix.nonsing_inv_mul _ hA, Matrix.one_mulVec] at h1
    exact h1

/-- One Crank-Nicolson step conserves the discrete norm exactly: the
propagator `A⁻¹·B` is unitary because `Aᴴ = B`, `Bᴴ = A` and `A`, `B`
commute. -/
theorem step_conserves_normSq (S : TimeDependentSolver)
    (psi : Fin S.grid.num_points → ℂ) :
    ∑ i, Complex.normSq (S.step psi i) = ∑ i, Complex.normSq (psi i) := by
  have hdetA : IsUnit S.A.det := isUnit_iff_ne_zero.mpr S.A_det_ne_zero
  have hdetB : IsUnit S.B.det := by
    refine isUnit_iff_ne_zero.mpr ?_
    rw [← S.A_conjTranspose, Matrix.det_conjTranspose]
    exact star_ne_zero.mpr S.A_det_ne_zero
  have hcomm : S.A * S.B = S.B * S.A := by
    simp only [TimeDependentSolver.A, TimeDependentSolver.B]
    exact one_add_mul_one_sub_comm _
  have hU : (S.A⁻¹ * S.B)ᴴ * (S.A⁻¹ * S.B) = 1 := by
    rw [Matrix.conjTranspose_mul, Matrix.conjTranspose_nonsing_inv,
      S.A_conjTranspose, S.B_conjTranspose]
    have h2 : S.B⁻¹ * S.A⁻¹ = S.A⁻¹ * S.B⁻¹ := by
      rw [← Matrix.mul_inv_rev, ← Matrix.mul_inv_rev, hcomm]
    calc S.A * S.B⁻¹ * (S.A⁻¹ * S.B)
        = S.A * (S.B⁻¹ * S.A⁻¹) * S.B := by noncomm_ring
      _ = S.A * (S.A⁻¹ * S.B⁻¹) * S.B := by rw [h2]
      _ = S.A * S.A⁻¹ * (S.B⁻¹ * S.B) := by noncomm_ring
      _ = 1 := by
          rw [Matrix.mul_nonsing_inv _ hdetA, Matrix.nonsing_inv_mul _ hdetB,
            one_mul]
  have hstep : S.step psi = (S.A⁻¹ * S.B) *ᵥ psi := by
    rw [TimeDependentSolver.step, Matrix.mulVec_mulVec]
  have key : star (S.step psi) ⬝ᵥ S.step psi = star psi ⬝ᵥ psi := by
    rw [hstep, Matrix.star_mulVec, Matrix.dotProduct_mulVec,
      Matrix.vecMul_vecMul, hU, Matrix.vecMul_one]
  rw [star_dotProduct_self, star_dotProduct_self] at key
  exact_mod_cast key

/-- C2: every column of a trajectory returned by `evolve` carries exactly the
same total probability `Σ|ψ|²·dx` as the initial wavefunction (the
Crank-Nicolson propagator is unitary since `H` is real symmetric); in
particular the difference is below the stated `1e-6` tolerance. -/
theorem evolve_conserves_probability (S : TimeDependentSolver)
    (psi_init : Fin S.grid.num_points → ℂ) (num_steps : ℕ)
    (traj : List (Fin S.grid.num_points → ℂ))
    (h : S.evolve psi_init num_steps = .ok traj) :
    ∀ col ∈ traj,
      (∑ i, Complex.abs (col i) ^ 2) * S.grid.dx
        = (∑ i, Complex.abs (psi_init i) ^ 2) * S.grid.dx ∧
      |(∑ i, Complex.abs (col i) ^ 2) * S.grid.dx
        - (∑ i, Complex.abs (psi_init i) ^ 2) * S.grid.dx| < 1 / 10 ^ 6 := by
  have habs : ∀ (w : Fin S.grid.num_points → ℂ),
      (∑ i, Complex.abs (w i) ^ 2) = ∑ i, Complex.normSq (w i) :=
    fun w => Finset.sum_congr rfl fun i _ => Complex.sq_abs _
  have hiter : ∀ t : ℕ,
      ∑ i, Complex.normSq ((S.step)^[t] psi_init i)
        = ∑ i, Complex.normSq (psi_init i) := by
    intro t
    induction t with
    | zero => rfl
    | succ t ih => rw [Function.iterate_succ_apply', step_conserves_normSq, ih]
  intro col hcol
  have htraj : traj = TimeDependentSolver.evolveList S.step psi_init num_steps := by
    by_cases h0 : num_steps = 0
    · rw [TimeDependentSolver.evolve, if_pos h0] at h
      exact absurd h (by simp)
    · rw [TimeDependentSolver.evolve, if_neg h0] at h
      exact (Except.ok.injEq _ _ ▸ congrArg id h) ▸ rfl
  subst htraj
  obtain ⟨⟨t, ht⟩, rfl⟩ := List.mem_iff_get.mp hcol
  rw [evolveList_get _ _ _ _ ht]
  constructor
  · rw [habs, habs, hiter]
  · rw [habs, habs, hiter, sub_self, abs_zero]
    norm_num

/-- C9: for every `num_steps ≥ 1`, `evolve` returns a trajectory of exactly
`num_steps` columns whose `t`-th column is `step` applied `t` times to
`psi_init` (so column `0` is `psi_init` and `step` runs `num_steps - 1`
times); calling `evolve` with `num_steps = 0` fails with an out-of-bounds
IndexError when writing column `0`. -/
theorem evolve_trajectory_spec (S : TimeDependentSolver)
    (psi_init : Fin S.grid.num_points → ℂ) (num_steps : ℕ)
    (h : 1 ≤ num_steps) :
    (∃ traj, S.evolve psi_init num_steps = .ok traj ∧
      traj.length = num_steps ∧
      ∀ t (ht : t < traj.length),
        traj.get ⟨t, ht⟩ = (S.step)^[t] psi_init) ∧
    S.evolve psi_init 0 = .error .indexError := by
  constructor
  · refine ⟨TimeDependentSolver.evolveList S.step psi_init num_steps, ?_,
      evolveList_length _ _ _, ?_⟩
    · have h0 : num_steps ≠ 0 := by omega
      rw [TimeDependentSolver.evolve, if_neg h0]
    · intro t ht
      exact evolveList_get _ _ _ _ ht
  · rw [TimeDependentSolver.evolve, if_pos rfl]

/-- A concrete two-point solver configuration used by the witnesses. -/
noncomputable def sampleSolver : TimeDependentSolver :=
  { grid := { x_min := 0, x_max := 1, num_points := 2 }
    potential := fun _ => 0
    mass := 1
    dt := 1 }

/-- A concrete wavefunction on the sample grid. -/
noncomputable def samplePsi : Fin sampleSolver.grid.num_points → ℂ := fun _ => 1

/-- C1 witness: on the concrete two-point solver the left-hand matrix is
invertible, and `step` produces the unique solution of the linear system. -/
theorem step_solves_crank_nicolson_witness :
    IsUnit sampleSolver.A.det ∧
      (sampleSolver.A *ᵥ sampleSolver.step samplePsi
          = sampleSolver.B *ᵥ samplePsi ∧
        ∀ y, sampleSolver.A *ᵥ y = sampleSolver.B *ᵥ samplePsi →
          y = sampleSolver.step samplePsi) := by
  have hA : IsUnit sampleSolver.A.det :=
    isUnit_iff_ne_zero.mpr sampleSolver.A_det_ne_zero
  exact ⟨hA, step_solves_crank_nicolson sampleSolver samplePsi hA⟩

/-- C2 witness: a concrete one-step trajectory on the sample solver, whose
single column carries the initial total probability. -/
theorem evolve_conserves_probability_witness :
    sampleSolver.evolve samplePsi 1 = .ok [samplePsi] ∧
      ∀ col ∈ [samplePsi],
        (∑ i, Complex.abs (col i) ^ 2) * sampleSolver.grid.dx
          = (∑ i, Complex.abs (samplePsi i) ^ 2) * sampleSolver.grid.dx ∧
        |(∑ i, Complex.abs (col i) ^ 2) * sampleSolver.grid.dx
          - (∑ i, Complex.abs (samplePsi i) ^ 2) * sampleSolver.grid.dx|
          < 1 / 10 ^ 6 := by
  have hev : sampleSolver.evolve samplePsi 1 = .ok [samplePsi] := by
    rw [TimeDependentSolver.evolve, if_neg one_ne_zero]
    rfl
  exact ⟨hev, evolve_conserves_probability sampleSolver samplePsi 1 [samplePsi] hev⟩

/-- C9 witness: evolving the sample solver for one step returns a one-column
trajectory whose column 0 is the initial wavefunction, and evolving for zero
steps raises IndexError. -/
theorem evolve_trajectory_spec_witness :
    1 ≤ 1 ∧
      ((∃ traj, sampleSolver.evolve samplePsi 1 = .ok traj ∧
        traj.length = 1 ∧
        ∀ t (ht : t < traj.length),
          traj.get ⟨t, ht⟩ = (sampleSolver.step)^[t] samplePsi) ∧
      sampleSolver.evolve samplePsi 0 = .error .indexError) :=
  ⟨le_refl 1, evolve_trajectory_spec sampleSolver samplePsi 1 (le_refl 1)⟩

/-- Warning category emitted through `warnings.warn` in
`solve_eigenproblem`. -/
inductive SolverWarning where
  | arpackNoConvergence
deriving DecidableEq

/-- Error that `solve_eigenproblem` could in principle signal to its caller.
The spec postulates a `ConvergenceError`; this type makes that outcome
expressible in the model (the code never produces it — indeed no such class
exists in the repository). -/
inductive SolverError where
  | convergenceError
deriving DecidableEq

/-- Outcome of the external call `scipy.sparse.linalg.eigsh`: either it
converges, or it raises `ArpackNoConvergence` carrying the partial
`e.eigenvalues` / `e.eigenvectors` computed so far. The eigensolver itself is
external library code, so the embedding is parametrized by its outcome. -/
inductive EigshOutcome (n : ℕ) where
  | converged (eigenvalues : List ℝ) (eigenvectors : List (Fin n → ℝ))
  | noConvergence (eigenvalues : List ℝ) (eigenvectors : List (Fin n → ℝ))

/-- Normalization of one eigenvector column (solvers.py lines 117-119):
`norm = np.sqrt(np.sum(np.abs(v)**2) * dx); v /= norm`. -/
noncomputable def normalizeColumn {n : ℕ} (dx : ℝ) (v : Fin n → ℝ) :
    Fin n → ℝ :=
  fun i => v i / Real.sqrt ((∑ j, |v j| ^ 2) * dx)

/-- The post-processing of `solve_eigenproblem` (solvers.py lines 111-119):
pair eigenvalues with eigenvector columns, sort the pairs ascending by
eigenvalue (`np.argsort`), and normalize every column. -/
noncomputable def postprocessEigenpairs {n : ℕ} (dx : ℝ) (eigenvalues : List ℝ)
    (eigenvectors : List (Fin n → ℝ)) : List (ℝ × (Fin n → ℝ)) :=
  ((eigenvalues.zip eigenvectors).mergeSort (fun a b => decide (a.1 ≤ b.1))).map
    (fun p => (p.1, normalizeColumn dx p.2))

/-- Embedding of `StationarySolver.solve_eigenproblem` around the `eigsh`
call (solvers.py lines 102-121). On `ArpackNoConvergence` the code catches
the exception, calls `warnings.warn(...)`, and continues with the partial
eigenpairs; both paths then sort, normalize and return normally. The
`Except` in the result records whether an exception escapes to the caller;
no code path produces `.error`. -/
noncomputable def StationarySolver.solve_eigenproblem {n : ℕ}
    (outcome : EigshOutcome n) (dx : ℝ) :
    Except SolverError (List (ℝ × (Fin n → ℝ))) × List SolverWarning :=
  match outcome with
  | .converged vals vecs => (.ok (postprocessEigenpairs dx vals vecs), [])
  | .noConvergence vals vecs =>
      (.ok (postprocessEigenpairs dx vals vecs), [.arpackNoConvergence])

/-- C5 counterexample: on a concrete non-convergent eigsh outcome,
`solve_eigenproblem` returns a normal (`.ok`) result — it does not report a
`ConvergenceError` to the caller. -/
theorem solve_eigenproblem_no_convergence_error :
    (StationarySolver.solve_eigenproblem
        (EigshOutcome.noConvergence [] ([] : List (Fin 2 → ℝ))) 1).1.isOk
      = true := rfl

/-- C5 amended: when the iterative eigensolver fails to converge,
`solve_eigenproblem` does not raise anything: it emits the warning
"ARPACK did not converge" and returns the partial eigenpairs sorted and
normalized, exactly as the success path would have returned them. -/
theorem solve_eigenproblem_amended {n : ℕ} (vals : List ℝ)
    (vecs : List (Fin n → ℝ)) (dx : ℝ) :
    (StationarySolver.solve_eigenproblem (.noConvergence vals vecs) dx).1.isOk
        = true ∧
      StationarySolver.solve_eigenproblem (.noConvergence vals vecs) dx
        = ((StationarySolver.solve_eigenproblem (.converged vals vecs) dx).1,
            [SolverWarning.arpackNoConvergence]) :=
  ⟨rfl, rfl⟩

end QuantumPlayground
